import Mathlib

/-!
Shallow embedding of `src/crypto.py`, a CLI tool for classical ciphers
(rotation, substitution, numeric-value, Atbash), together with proofs of
the specified properties.

Modelling conventions:
* Python strings are `List Char`; building `final_text` by repeated `+=`
  becomes structural recursion producing the same list.
* Python `int` is `Int`; Python `%` on negative operands agrees with
  Lean's `Int.emod` (both yield a result in `[0, 26)` for modulus 26).
* `string.ascii_lowercase` / `string.ascii_uppercase` are the explicit
  26-letter lists below.
* `str.index` is `List.indexOf`; every use in the source is guarded by a
  membership test, exactly as here.
* In-range sequence indexing `s[i]` is `List.getD i c` with an arbitrary
  default: at each such use the index is provably in range (shift indices
  are reduced mod 26; key indices are in range for the 26-letter keys the
  claims quantify over), so the default is never produced.  The one place
  where the source can genuinely index out of range — numeric-value
  decryption — is instead modelled exactly by `pyGetChar`, which also
  captures Python's negative-index wrap-around and its `IndexError`.
* `random.randint` is modelled by quantifying over the values drawn: an
  extra numeric argument (or a stream `Nat → Nat` for the substitution
  generator, reduced into range with `%`).
* Each cipher function prints; its model returns the list of printed
  lines.
-/

namespace Crypto

/-- `string.ascii_lowercase`. -/
def lettersLower : List Char :=
  ['a', 'b', 'c', 'd', 'e', 'f', 'g', 'h', 'i', 'j', 'k', 'l', 'm',
   'n', 'o', 'p', 'q', 'r', 's', 't', 'u', 'v', 'w', 'x', 'y', 'z']

/-- `string.ascii_uppercase`. -/
def lettersUpper : List Char :=
  ['A', 'B', 'C', 'D', 'E', 'F', 'G', 'H', 'I', 'J', 'K', 'L', 'M',
   'N', 'O', 'P', 'Q', 'R', 'S', 'T', 'U', 'V', 'W', 'X', 'Y', 'Z']

/-- Decimal rendering of a natural number, fuelled so that it reduces in
the kernel; `fuel = n + 1` always suffices since the value shrinks by a
factor of ten each step. -/
def natReprAux : Nat → Nat → List Char
  | 0, _ => []
  | fuel + 1, n =>
    if n < 10 then [Char.ofNat (48 + n)]
    else natReprAux fuel (n / 10) ++ [Char.ofNat (48 + n % 10)]

/-- Decimal rendering of a natural number, modelling Python `str(n)` for
`n ≥ 0`. -/
def natRepr (n : Nat) : List Char :=
  natReprAux (n + 1) n

/-- `rot_logic(text, key)` from `rot` in `src/crypto.py`: shift each
alphabetic character by `key` within its own-case alphabet, mod 26;
other characters pass through. -/
def rot_logic (text : List Char) (key : Int) : List Char :=
  match text with
  | [] => []
  | char :: rest =>
    (if char ∈ lettersLower then
       [lettersLower.getD (((lettersLower.indexOf char : Int) + key) % 26).toNat char]
     else if char ∈ lettersUpper then
       [lettersUpper.getD (((lettersUpper.indexOf char : Int) + key) % 26).toNat char]
     else [char]) ++ rot_logic rest key

/-- `rot(text, key, operation)`: dispatch on the operation, returning the
printed lines.  `randint` models the value drawn by `random.randint(1, 26)`
in the generate branch; Python's `None` key (possible on branches that
never read the key) is passed as an arbitrary `Int`. -/
def rot (text : List Char) (key : Int) (operation : String) (randint : Nat) :
    List (List Char) :=
  if operation = "encrypt" then [rot_logic text key]
  else if operation = "decrypt" then [rot_logic text (0 - key)]
  else if operation = "bruteforce" then
    (List.range 26).map
      (fun i => "ROT ".toList ++ natRepr i ++ ": ".toList ++ rot_logic text (i : Int))
  else if operation = "generate" then [natRepr randint]
  else if operation = "info" then
    [("Rot info: Each letter of the string is moved in the alphabet <key> times ahead. For example, with a key of 1 a would become b, b would be c, ... A common key is 13 (ROT13) where each letter is moved 13 times.").toList]
  else []

/-- `atbash_logic(text)` from `atbash` in `src/crypto.py`: each alphabetic
character goes to position `25 - index` of its own-case alphabet; other
characters pass through. -/
def atbash_logic (text : List Char) : List Char :=
  match text with
  | [] => []
  | char :: rest =>
    (if char ∈ lettersLower then
       [lettersLower.getD (25 - lettersLower.indexOf char) char]
     else if char ∈ lettersUpper then
       [lettersUpper.getD (25 - lettersUpper.indexOf char) char]
     else [char]) ++ atbash_logic rest

/-- `atbash(text, operation)`: encrypt and decrypt share the same logic. -/
def atbash (text : List Char) (operation : String) : List (List Char) :=
  if operation = "encrypt" ∨ operation = "decrypt" then [atbash_logic text]
  else if operation = "info" then
    [("Atbash cipher reverses the order of the letters in the alphabet.").toList]
  else []

/-- `subst_logic_enc(text, key)` from `subst` in `src/crypto.py`: replace
each alphabetic character by the same-index character of the case-matched
key (`key.lower()` / `key.upper()`); other characters pass through. -/
def subst_logic_enc (text key : List Char) : List Char :=
  match text with
  | [] => []
  | char :: rest =>
    (if char ∈ lettersLower then
       [(key.map Char.toLower).getD (lettersLower.indexOf char) char]
     else if char ∈ lettersUpper then
       [(key.map Char.toUpper).getD (lettersUpper.indexOf char) char]
     else [char]) ++ subst_logic_enc rest key

/-- `subst_logic_dec(text, key)`: replace each character found in the
case-matched key by the alphabet letter at its key position; characters
not in the key pass through. -/
def subst_logic_dec (text key : List Char) : List Char :=
  match text with
  | [] => []
  | char :: rest =>
    (if char ∈ key.map Char.toLower then
       [lettersLower.getD ((key.map Char.toLower).indexOf char) char]
     else if char ∈ key.map Char.toUpper then
       [lettersUpper.getD ((key.map Char.toUpper).indexOf char) char]
     else [char]) ++ subst_logic_dec rest key

/-- One run of the `subst_logic_gen` loop body, iterated `fuel` times over
the shrinking pool: pick index `rnd k % pool.length` (modelling
`random.randint(0, len(letters) - 1)`), emit that letter and remove it. -/
def subst_logic_gen_aux (rnd : Nat → Nat) : Nat → List Char → List Char
  | 0, _ => []
  | k + 1, pool =>
    pool.getD (rnd (k + 1) % pool.length) 'A'
      :: subst_logic_gen_aux rnd k (pool.eraseIdx (rnd (k + 1) % pool.length))

/-- `subst_logic_gen()`: 26 random draws without replacement from the
uppercase alphabet. -/
def subst_logic_gen (rnd : Nat → Nat) : List Char :=
  subst_logic_gen_aux rnd 26 lettersUpper

/-- `subst(text, key, operation)`: dispatch, returning the printed lines. -/
def subst (text key : List Char) (operation : String) (rnd : Nat → Nat) :
    List (List Char) :=
  if operation = "encrypt" then [subst_logic_enc text key]
  else if operation = "decrypt" then [subst_logic_dec text key]
  else if operation = "generate" then [subst_logic_gen rnd]
  else if operation = "info" then
    [("Substitution cipher uses a custom alphabet (key), and each letter from the regular alphabet (a, b, c, ...) becomes the letter in the same position in the key.").toList]
  else []

/-- The whitespace characters recognised by Python `str.split()` (ASCII
range). -/
def isPySpace (c : Char) : Bool :=
  c == ' ' || c == '\t' || c == '\n' || c == '\x0b' || c == '\x0c' || c == '\r'

/-- The splitting loop behind Python `str.split()`: `acc` holds the
(reversed) characters of the token being read. -/
def pySplitAcc : List Char → List Char → List (List Char)
  | [], acc => if acc = [] then [] else [acc.reverse]
  | c :: rest, acc =>
    if isPySpace c then
      if acc = [] then pySplitAcc rest [] else acc.reverse :: pySplitAcc rest []
    else pySplitAcc rest (c :: acc)

/-- Python `str.split()` with no separator: split on runs of whitespace,
discarding empty pieces. -/
def pySplit (s : List Char) : List (List Char) :=
  pySplitAcc s []

/-- Value of a nonempty digit string. -/
def digitsVal (s : List Char) : Nat :=
  s.foldl (fun acc c => acc * 10 + (c.toNat - 48)) 0

/-- Python `int(str)` on a stripped token: optional sign followed by at
least one digit; anything else raises `ValueError`, modelled as `none`. -/
def pyInt (s : List Char) : Option Int :=
  match s with
  | '-' :: rest =>
    if rest ≠ [] ∧ rest.all Char.isDigit then some (-(digitsVal rest : Int)) else none
  | '+' :: rest =>
    if rest ≠ [] ∧ rest.all Char.isDigit then some ((digitsVal rest : Int)) else none
  | _ => if s ≠ [] ∧ s.all Char.isDigit then some ((digitsVal s : Int)) else none

/-- Python sequence indexing `l[i]`: indices in `[0, len)` read directly,
indices in `[-len, 0)` wrap around from the end, anything else raises
`IndexError`, modelled as `none`. -/
def pyGetChar (l : List Char) (i : Int) : Option Char :=
  if 0 ≤ i ∧ i < (l.length : Int) then l[i.toNat]?
  else if -(l.length : Int) ≤ i ∧ i < 0 then l[(i + (l.length : Int)).toNat]?
  else none

/-- Exceptions the numeric-value decryption can raise. -/
inductive PyExn where
  | valueError
  | indexError
deriving DecidableEq

/-- Equality of `Except` results is decidable componentwise. -/
instance {ε α : Type} [DecidableEq ε] [DecidableEq α] : DecidableEq (Except ε α) :=
  fun a b =>
  match a, b with
  | .error e, .error f =>
    if h : e = f then isTrue (by rw [h])
    else isFalse (fun hab => by cases hab; exact h rfl)
  | .error _, .ok _ => isFalse (fun hab => by cases hab)
  | .ok _, .error _ => isFalse (fun hab => by cases hab)
  | .ok x, .ok y =>
    if h : x = y then isTrue (by rw [h])
    else isFalse (fun hab => by cases hab; exact h rfl)

/-- The `numval_logic_enc` loop over the already-uppercased text: a letter
becomes its 1-based alphabet position followed by a space, a space becomes
`"0 "`, anything else is dropped. -/
def numval_enc_go : List Char → List Char
  | [] => []
  | char :: rest =>
    if char ∈ lettersUpper then
      natRepr (lettersUpper.indexOf char + 1) ++ [' '] ++ numval_enc_go rest
    else if char = ' ' then '0' :: ' ' :: numval_enc_go rest
    else numval_enc_go rest

/-- `numval_logic_enc(text)` from `numval` in `src/crypto.py`: iterate over
`text.upper()`. -/
def numval_logic_enc (text : List Char) : List Char :=
  numval_enc_go (text.map Char.toUpper)

/-- `list(map(int, text.split()))`: parse every token before the decryption
loop runs; a malformed token raises `ValueError`. -/
def pyMapInt : List (List Char) → Except PyExn (List Int)
  | [] => .ok []
  | t :: rest =>
    match pyInt t with
    | some n => (pyMapInt rest).map (fun l => n :: l)
    | none => .error .valueError

/-- The `numval_logic_dec` loop over the parsed tokens: a nonzero token `n`
reads `letters[n - 1]` with Python indexing, zero becomes a space. -/
def numval_dec_go : List Int → Except PyExn (List Char)
  | [] => .ok []
  | n :: rest =>
    if n ≠ 0 then
      match pyGetChar lettersUpper (n - 1) with
      | some c => (numval_dec_go rest).map (fun t => c :: t)
      | none => .error .indexError
    else (numval_dec_go rest).map (fun t => ' ' :: t)

/-- `numval_logic_dec(text)`: split, parse all tokens, then map them back
to letters and spaces. -/
def numval_logic_dec (text : List Char) : Except PyExn (List Char) :=
  match pyMapInt (pySplit text) with
  | .ok ints => numval_dec_go ints
  | .error e => .error e

/-- `numval(text, operation)`: dispatch, returning the printed lines or
the uncaught exception. -/
def numval (text : List Char) (operation : String) :
    Except PyExn (List (List Char)) :=
  if operation = "encrypt" then .ok [numval_logic_enc text]
  else if operation = "decrypt" then (numval_logic_dec text).map (fun t => [t])
  else if operation = "info" then
    .ok [("Numeric Value changes each letter for it's index in the alphabet.").toList]
  else .ok []

/-- The argparse result: one boolean per cipher flag and per operation
flag, plus the optional `-t` and `-k` values.  Mutual exclusivity of the
flag groups is enforced by argparse before this point and is not assumed
here. -/
structure Args where
  rot : Bool
  subst : Bool
  numval : Bool
  atbash : Bool
  encrypt : Bool
  decrypt : Bool
  bruteforce : Bool
  generate : Bool
  info : Bool
  text : Option String
  key : Option String
deriving DecidableEq

/-- The cipher-detection loop: scan the flags in declaration order, the
last one set wins. -/
def selectedCipher (a : Args) : Option String :=
  let s : Option String := none
  let s := if a.rot then some "rot" else s
  let s := if a.subst then some "subst" else s
  let s := if a.numval then some "numval" else s
  let s := if a.atbash then some "atbash" else s
  s

/-- The operation-detection loop, with the fallback to `"encrypt"` when no
operation flag is set. -/
def selectedOperation (a : Args) : String :=
  let s : Option String := none
  let s := if a.encrypt then some "encrypt" else s
  let s := if a.decrypt then some "decrypt" else s
  let s := if a.bruteforce then some "bruteforce" else s
  let s := if a.generate then some "generate" else s
  let s := if a.info then some "info" else s
  s.getD "encrypt"

/-- `CIPHER_INFO[c]["operations"]`. -/
def cipherOperations (c : String) : List String :=
  if c = "rot" then ["encrypt", "decrypt", "bruteforce", "generate", "info"]
  else if c = "subst" then ["encrypt", "decrypt", "generate", "info"]
  else ["encrypt", "decrypt", "info"]

/-- `CIPHER_INFO[c]["key_type"]`: `none` models Python `None`. -/
inductive KeyType where
  | intKey
  | strKey
deriving DecidableEq

/-- Key type required by each cipher. -/
def cipherKeyType (c : String) : Option KeyType :=
  if c = "rot" then some .intKey
  else if c = "subst" then some .strKey
  else none

/-- Outcome of `argument_parser()`: either `parser.error(msg)` (a usage
error that terminates the process) or the dynamic call of the selected
cipher function with the validated text, coerced key (`Sum.inl` an `int`,
`Sum.inr` a `str`, `none` for Python `None`) and operation. -/
inductive ParseResult where
  | usageError (msg : String)
  | call (cipher : String) (text : Option String) (key : Option (Int ⊕ String))
      (operation : String)
deriving DecidableEq

/-- Whether a parse outcome is a usage error. -/
def ParseResult.isUsageError : ParseResult → Bool
  | .usageError _ => true
  | .call _ _ _ _ => false

/-- Python `str.strip()` with no argument: remove leading and trailing
whitespace. -/
def pyStrip (s : String) : String :=
  String.mk (((s.toList.dropWhile isPySpace).reverse.dropWhile isPySpace).reverse)

/-- Python `TEXT.isdigit()`: nonempty and all digits. -/
def pyIsDigit (s : String) : Bool :=
  s.toList ≠ [] && s.toList.all Char.isDigit

/-- The validation part of `argument_parser()` in `src/crypto.py`, after
argparse has produced `args`.  The `-t`/`-k` file-loading branch
(`os.path.isfile`) is modelled on its literal-string side: the argument
value itself, stripped, is the text/key. -/
def argumentParser (args : Args) : ParseResult :=
  match selectedCipher args with
  | none => .usageError "Must provide a cipher. Use crypto --help"
  | some cipher =>
    let operation := selectedOperation args
    if operation ∉ cipherOperations cipher then
      .usageError ("Operation " ++ operation ++ " is not compatible with "
        ++ cipher ++ ". Use crypto --help")
    else
      -- TEXT stage
      let textStage : ParseResult ⊕ Option String :=
        if operation ∈ ["encrypt", "decrypt", "bruteforce"] then
          match args.text with
          | none => Sum.inl (.usageError (operation ++ " requires -t/--text argument"))
          | some t =>
            let text := pyStrip t
            if pyIsDigit text then
              Sum.inl (.usageError "-t/--text input must be a string, not a number")
            else Sum.inr (some text)
        else
          match args.text with
          | some _ =>
            Sum.inl (.usageError (operation ++ " does not require -t/--text argument"))
          | none => Sum.inr none
      match textStage with
      | Sum.inl err => err
      | Sum.inr text =>
        -- KEY stage
        let keyStage : ParseResult ⊕ Option (Int ⊕ String) :=
          if (cipherKeyType cipher).isSome ∧ operation ∈ ["encrypt", "decrypt"] then
            match args.key with
            | none =>
              Sum.inl (.usageError (cipher ++ " cipher requires -k/--key argument"))
            | some k =>
              let key := pyStrip k
              match pyInt key.toList with
              | some n => Sum.inr (some (Sum.inl n))
              | none => Sum.inr (some (Sum.inr key))
          else Sum.inr none
        match keyStage with
        | Sum.inl err => err
        | Sum.inr key =>
          -- KEY type check: `isinstance(KEY, int)` / `isinstance(KEY, str)`
          match cipherKeyType cipher, key with
          | some .intKey, some (Sum.inr _) =>
            .usageError ("Cipher " ++ cipher ++ " requires numeric key (-k)")
          | some .strKey, some (Sum.inl _) =>
            .usageError ("Cipher " ++ cipher ++ " requires string key (-k)")
          | _, _ => .call cipher text key operation

/-- Spec-side formalisation of "T uppercased with all characters that are
neither letters nor spaces removed" (the stated result of the
numeric-value round trip). -/
def numvalFilter (text : List Char) : List Char :=
  (text.map Char.toUpper).filter (fun c => c ∈ lettersUpper || c == ' ')

/-- Spec-side formalisation of the numeric-value encryption contract: per
character (case-normalised to uppercase), a letter becomes its 1-based
alphabet position in decimal followed by a space, a space becomes "0"
followed by a space, anything else contributes nothing. -/
def numvalEncSpec (text : List Char) : List Char :=
  text.flatMap (fun c =>
    if Char.toUpper c ∈ lettersUpper then
      natRepr (lettersUpper.indexOf (Char.toUpper c) + 1) ++ [' ']
    else if Char.toUpper c = ' ' then ['0', ' ']
    else [])

/-- The integer tokens produced by encrypting an (uppercased) text: used
to relate the encryption and decryption loops. -/
def numvalTokens : List Char → List Int
  | [] => []
  | char :: rest =>
    if char ∈ lettersUpper then ((lettersUpper.indexOf char : Int) + 1) :: numvalTokens rest
    else if char = ' ' then 0 :: numvalTokens rest
    else numvalTokens rest

/-! ## Helper lemmas -/

theorem lettersLower_nodup : lettersLower.Nodup := by decide

theorem lettersUpper_nodup : lettersUpper.Nodup := by decide

theorem lettersLower_length : lettersLower.length = 26 := rfl

theorem lettersUpper_length : lettersUpper.length = 26 := rfl

theorem not_mem_lower_of_mem_upper : ∀ c ∈ lettersUpper, c ∉ lettersLower := by decide

theorem not_mem_upper_of_mem_lower : ∀ c ∈ lettersLower, c ∉ lettersUpper := by decide

/-- Shifting a lowercase letter lands on a lowercase letter whose alphabet
index is the original index plus the key, mod 26. -/
theorem rot_char_lower {c : Char} (hc : c ∈ lettersLower) (K : Int) :
    lettersLower.getD (((lettersLower.indexOf c : Int) + K) % 26).toNat c ∈ lettersLower ∧
    (lettersLower.indexOf
        (lettersLower.getD (((lettersLower.indexOf c : Int) + K) % 26).toNat c) : Int)
      = ((lettersLower.indexOf c : Int) + K) % 26 := by
  have hi : lettersLower.indexOf c < 26 := by
    have h := List.indexOf_lt_length.mpr hc
    simpa [lettersLower_length] using h
  have hj : (((lettersLower.indexOf c : Int) + K) % 26).toNat < lettersLower.length := by
    rw [lettersLower_length]; omega
  rw [List.getD_eq_getElem _ _ hj]
  refine ⟨List.getElem_mem hj, ?_⟩
  rw [List.indexOf_getElem lettersLower_nodup _ hj]
  omega

/-- Shifting an uppercase letter lands on an uppercase letter whose
alphabet index is the original index plus the key, mod 26. -/
theorem rot_char_upper {c : Char} (hc : c ∈ lettersUpper) (K : Int) :
    lettersUpper.getD (((lettersUpper.indexOf c : Int) + K) % 26).toNat c ∈ lettersUpper ∧
    (lettersUpper.indexOf
        (lettersUpper.getD (((lettersUpper.indexOf c : Int) + K) % 26).toNat c) : Int)
      = ((lettersUpper.indexOf c : Int) + K) % 26 := by
  have hi : lettersUpper.indexOf c < 26 := by
    have h := List.indexOf_lt_length.mpr hc
    simpa [lettersUpper_length] using h
  have hj : (((lettersUpper.indexOf c : Int) + K) % 26).toNat < lettersUpper.length := by
    rw [lettersUpper_length]; omega
  rw [List.getD_eq_getElem _ _ hj]
  refine ⟨List.getElem_mem hj, ?_⟩
  rw [List.indexOf_getElem lettersUpper_nodup _ hj]
  omega

/-- Shifting by `key` and then by `0 - key` restores any text. -/
theorem rot_logic_inverse (text : List Char) (key : Int) :
    rot_logic (rot_logic text key) (0 - key) = text := by
  induction text with
  | nil => rfl
  | cons c rest ih =>
    by_cases hl : c ∈ lettersLower
    · have hi : lettersLower.indexOf c < 26 := by
        have h := List.indexOf_lt_length.mpr hl
        simpa [lettersLower_length] using h
      obtain ⟨hmem, hidx⟩ := rot_char_lower hl key
      rw [rot_logic, if_pos hl, List.singleton_append, rot_logic, if_pos hmem,
        List.singleton_append, ih]
      congr 1
      have hback : (((lettersLower.indexOf
          (lettersLower.getD (((lettersLower.indexOf c : Int) + key) % 26).toNat c) : Int)
            + (0 - key)) % 26).toNat = lettersLower.indexOf c := by
        rw [hidx]; omega
      rw [hback, List.getD_eq_getElem _ _ (by rw [lettersLower_length]; omega),
        List.getElem_indexOf (by rw [lettersLower_length]; omega)]
    · by_cases hu : c ∈ lettersUpper
      · have hi : lettersUpper.indexOf c < 26 := by
          have h := List.indexOf_lt_length.mpr hu
          simpa [lettersUpper_length] using h
        obtain ⟨hmem, hidx⟩ := rot_char_upper hu key
        rw [rot_logic, if_neg hl, if_pos hu, List.singleton_append, rot_logic,
          if_neg (not_mem_lower_of_mem_upper _ hmem), if_pos hmem,
          List.singleton_append, ih]
        congr 1
        have hback : (((lettersUpper.indexOf
            (lettersUpper.getD (((lettersUpper.indexOf c : Int) + key) % 26).toNat c) : Int)
              + (0 - key)) % 26).toNat = lettersUpper.indexOf c := by
          rw [hidx]; omega
        rw [hback, List.getD_eq_getElem _ _ (by rw [lettersUpper_length]; omega),
          List.getElem_indexOf (by rw [lettersUpper_length]; omega)]
      · rw [rot_logic, if_neg hl, if_neg hu, List.singleton_append, rot_logic,
          if_neg hl, if_neg hu, List.singleton_append, ih]

/-- C1: for alphabetic text and any integer key, the Rotation cipher's
decrypt operation applied to the encrypt output with the same key returns
the original text. -/
theorem rot_roundtrip (text : List Char) (key : Int)
    (_h : ∀ c ∈ text, c ∈ lettersLower ∨ c ∈ lettersUpper) :
    rot text key "encrypt" 0 = [rot_logic text key] ∧
    rot (rot_logic text key) key "decrypt" 0 = [text] := by
  refine ⟨rfl, ?_⟩
  have hinv : rot_logic (rot_logic text key) (-key) = text := by
    simpa using rot_logic_inverse text key
  simp [rot, hinv]

/-- Witness for C1 at text "HELLO", key 3. -/
theorem rot_roundtrip_witness :
    rot ("HELLO".toList) 3 "encrypt" 0 = [rot_logic ("HELLO".toList) 3] ∧
    rot (rot_logic ("HELLO".toList) 3) 3 "decrypt" 0 = ["HELLO".toList] :=
  rot_roundtrip ("HELLO".toList) 3 (by decide)

/-- Rotation preserves the length of the text. -/
theorem rot_logic_length (text : List Char) (key : Int) :
    (rot_logic text key).length = text.length := by
  induction text with
  | nil => rfl
  | cons c rest ih =>
    rw [rot_logic]
    split_ifs <;> simp [ih]

/-- Per-position behaviour of the rotation shift. -/
theorem rot_logic_getD (text : List Char) (key : Int) (i : Nat) (hi : i < text.length) :
    (text.getD i ' ' ∈ lettersLower →
      (rot_logic text key).getD i ' ' ∈ lettersLower ∧
      (lettersLower.indexOf ((rot_logic text key).getD i ' ') : Int)
        = ((lettersLower.indexOf (text.getD i ' ') : Int) + key) % 26) ∧
    (text.getD i ' ' ∈ lettersUpper →
      (rot_logic text key).getD i ' ' ∈ lettersUpper ∧
      (lettersUpper.indexOf ((rot_logic text key).getD i ' ') : Int)
        = ((lettersUpper.indexOf (text.getD i ' ') : Int) + key) % 26) ∧
    (text.getD i ' ' ∉ lettersLower → text.getD i ' ' ∉ lettersUpper →
      (rot_logic text key).getD i ' ' = text.getD i ' ') := by
  induction text generalizing i with
  | nil => cases hi
  | cons c rest ih =>
    match i with
    | 0 =>
      by_cases hl : c ∈ lettersLower
      · rw [rot_logic, if_pos hl, List.singleton_append]
        refine ⟨fun _ => ?_, fun habs => ?_, fun h1 _ => absurd hl h1⟩
        · simpa using rot_char_lower hl key
        · exact absurd habs (not_mem_upper_of_mem_lower c hl)
      · by_cases hu : c ∈ lettersUpper
        · rw [rot_logic, if_neg hl, if_pos hu, List.singleton_append]
          refine ⟨fun habs => ?_, fun _ => ?_, fun _ h2 => absurd hu h2⟩
          · exact absurd habs hl
          · simpa using rot_char_upper hu key
        · rw [rot_logic, if_neg hl, if_neg hu, List.singleton_append]
          exact ⟨fun habs => absurd habs hl, fun habs => absurd habs hu, fun _ _ => rfl⟩
    | j + 1 =>
      have hj : j < rest.length := by simpa using hi
      have step : ∀ d : List Char, rot_logic (c :: rest) key
          = (if c ∈ lettersLower then
              [lettersLower.getD (((lettersLower.indexOf c : Int) + key) % 26).toNat c]
            else if c ∈ lettersUpper then
              [lettersUpper.getD (((lettersUpper.indexOf c : Int) + key) % 26).toNat c]
            else [c]) ++ rot_logic rest key := fun _ => rfl
      rw [step []]
      have hsing : ∀ x : Char, ∀ l : List Char, (([x] : List Char) ++ l).getD (j + 1) ' ' = l.getD j ' ' := by
        intro x l; rfl
      split_ifs <;>
        simpa [hsing] using ih j hj

/-- C7: Rotation encryption maps each alphabetic character of the text to
the character whose alphabet index is the original index plus the key
modulo 26 in the same-case alphabet, and leaves every non-alphabetic
character unchanged in place (and the length unchanged). -/
theorem rot_encrypt_charwise (text : List Char) (key : Int) :
    (rot_logic text key).length = text.length ∧
    ∀ i, i < text.length →
      (text.getD i ' ' ∈ lettersLower →
        (rot_logic text key).getD i ' ' ∈ lettersLower ∧
        (lettersLower.indexOf ((rot_logic text key).getD i ' ') : Int)
          = ((lettersLower.indexOf (text.getD i ' ') : Int) + key) % 26) ∧
      (text.getD i ' ' ∈ lettersUpper →
        (rot_logic text key).getD i ' ' ∈ lettersUpper ∧
        (lettersUpper.indexOf ((rot_logic text key).getD i ' ') : Int)
          = ((lettersUpper.indexOf (text.getD i ' ') : Int) + key) % 26) ∧
      (text.getD i ' ' ∉ lettersLower → text.getD i ' ' ∉ lettersUpper →
        (rot_logic text key).getD i ' ' = text.getD i ' ') :=
  ⟨rot_logic_length text key, fun i hi => rot_logic_getD text key i hi⟩

/-- Witness for C7 at text "aZ!", key 1, positions 0 and 2. -/
theorem rot_encrypt_charwise_witness :
    (rot_logic ("aZ!".toList) 1).length = 3 ∧
    ((rot_logic ("aZ!".toList) 1).getD 0 ' ' ∈ lettersLower ∧
      (lettersLower.indexOf ((rot_logic ("aZ!".toList) 1).getD 0 ' ') : Int)
        = ((lettersLower.indexOf (("aZ!".toList).getD 0 ' ') : Int) + 1) % 26) ∧
    (rot_logic ("aZ!".toList) 1).getD 2 ' ' = '!' := by
  have h := rot_encrypt_charwise ("aZ!".toList) 1
  exact ⟨h.1, (h.2 0 (by decide)).1 (by decide),
    (h.2 2 (by decide)).2.2 (by decide) (by decide)⟩

/-- Mirroring a lowercase letter lands on the lowercase letter at position
`25 - index`. -/
theorem atbash_char_lower {c : Char} (hc : c ∈ lettersLower) :
    lettersLower.getD (25 - lettersLower.indexOf c) c ∈ lettersLower ∧
    lettersLower.indexOf (lettersLower.getD (25 - lettersLower.indexOf c) c)
      = 25 - lettersLower.indexOf c := by
  have hi : lettersLower.indexOf c < 26 := by
    have h := List.indexOf_lt_length.mpr hc
    simpa [lettersLower_length] using h
  have hj : 25 - lettersLower.indexOf c < lettersLower.length := by
    rw [lettersLower_length]; omega
  rw [List.getD_eq_getElem _ _ hj]
  exact ⟨List.getElem_mem hj, List.indexOf_getElem lettersLower_nodup _ hj⟩

/-- Mirroring an uppercase letter lands on the uppercase letter at
position `25 - index`. -/
theorem atbash_char_upper {c : Char} (hc : c ∈ lettersUpper) :
    lettersUpper.getD (25 - lettersUpper.indexOf c) c ∈ lettersUpper ∧
    lettersUpper.indexOf (lettersUpper.getD (25 - lettersUpper.indexOf c) c)
      = 25 - lettersUpper.indexOf c := by
  have hi : lettersUpper.indexOf c < 26 := by
    have h := List.indexOf_lt_length.mpr hc
    simpa [lettersUpper_length] using h
  have hj : 25 - lettersUpper.indexOf c < lettersUpper.length := by
    rw [lettersUpper_length]; omega
  rw [List.getD_eq_getElem _ _ hj]
  exact ⟨List.getElem_mem hj, List.indexOf_getElem lettersUpper_nodup _ hj⟩

/-- C6: the Atbash transform is self-inverse on every text, and the
encrypt and decrypt operations both apply that same transform. -/
theorem atbash_involutive (text : List Char) :
    atbash_logic (atbash_logic text) = text ∧
    atbash text "encrypt" = [atbash_logic text] ∧
    atbash text "decrypt" = [atbash_logic text] := by
  refine ⟨?_, rfl, rfl⟩
  induction text with
  | nil => rfl
  | cons c rest ih =>
    by_cases hl : c ∈ lettersLower
    · have hi : lettersLower.indexOf c < 26 := by
        have h := List.indexOf_lt_length.mpr hl
        simpa [lettersLower_length] using h
      obtain ⟨hmem, hidx⟩ := atbash_char_lower hl
      rw [atbash_logic, if_pos hl, List.singleton_append, atbash_logic, if_pos hmem,
        List.singleton_append, ih]
      congr 1
      rw [hidx]
      have hback : 25 - (25 - lettersLower.indexOf c) = lettersLower.indexOf c := by omega
      rw [hback, List.getD_eq_getElem _ _ (by rw [lettersLower_length]; omega),
        List.getElem_indexOf (by rw [lettersLower_length]; omega)]
    · by_cases hu : c ∈ lettersUpper
      · have hi : lettersUpper.indexOf c < 26 := by
          have h := List.indexOf_lt_length.mpr hu
          simpa [lettersUpper_length] using h
        obtain ⟨hmem, hidx⟩ := atbash_char_upper hu
        rw [atbash_logic, if_neg hl, if_pos hu, List.singleton_append, atbash_logic,
          if_neg (not_mem_lower_of_mem_upper _ hmem), if_pos hmem,
          List.singleton_append, ih]
        congr 1
        rw [hidx]
        have hback : 25 - (25 - lettersUpper.indexOf c) = lettersUpper.indexOf c := by omega
        rw [hback, List.getD_eq_getElem _ _ (by rw [lettersUpper_length]; omega),
          List.getElem_indexOf (by rw [lettersUpper_length]; omega)]
      · rw [atbash_logic, if_neg hl, if_neg hu, List.singleton_append, atbash_logic,
          if_neg hl, if_neg hu, List.singleton_append, ih]

/-- C3: Rotation bruteforce on "HELLO" produces exactly 26 lines, one per
key 0 through 25 in order, each labelled with its key value; line 0 shows
"HELLO" and line 13 shows "URYYB". -/
theorem rot_bruteforce_hello :
    (rot ("HELLO".toList) 0 "bruteforce" 0).length = 26 ∧
    (∀ i ∈ List.range 26,
      (rot ("HELLO".toList) 0 "bruteforce" 0).getD i []
        = "ROT ".toList ++ natRepr i ++ ": ".toList ++ rot_logic ("HELLO".toList) (i : Int)) ∧
    (rot ("HELLO".toList) 0 "bruteforce" 0).getD 0 [] = "ROT 0: HELLO".toList ∧
    (rot ("HELLO".toList) 0 "bruteforce" 0).getD 13 [] = "ROT 13: URYYB".toList := by
  decide

/-- Witness for C3 at line 13. -/
theorem rot_bruteforce_hello_witness :
    (rot ("HELLO".toList) 0 "bruteforce" 0).getD 13 []
      = "ROT ".toList ++ natRepr 13 ++ ": ".toList ++ rot_logic ("HELLO".toList) (13 : Int) :=
  rot_bruteforce_hello.2.1 13 (by decide)

/-- Counterexample to C4 as stated: a NumericValue encrypt invocation
that supplies a key argument is not rejected with a usage error — the
validation never checks for a superfluous key, so the call is dispatched
with the key silently dropped. -/
theorem argparser_numval_key_accepted :
    (argumentParser ⟨false, false, true, false, true, false, false, false, false,
        some "HELLO", some "X"⟩).isUsageError = false ∧
    argumentParser ⟨false, false, true, false, true, false, false, false, false,
        some "HELLO", some "X"⟩
      = .call "numval" (some "HELLO") none "encrypt" := by
  decide

/-- C4 amended: a Rotation encrypt invocation with text but no key is
rejected with a usage error, while a NumericValue encrypt invocation that
supplies a key argument is accepted and the key is silently ignored. -/
theorem argparser_key_validation :
    argumentParser ⟨true, false, false, false, true, false, false, false, false,
        some "HELLO", none⟩
      = .usageError "rot cipher requires -k/--key argument" ∧
    argumentParser ⟨false, false, true, false, true, false, false, false, false,
        some "HELLO", some "X"⟩
      = .call "numval" (some "HELLO") none "encrypt" := by
  decide

/-- The numeric-value encryption loop agrees with its per-character
contract. -/
theorem numval_enc_go_eq (text : List Char) :
    numval_enc_go (text.map Char.toUpper) = numvalEncSpec text := by
  induction text with
  | nil => rfl
  | cons c rest ih =>
    rw [List.map_cons, numval_enc_go, numvalEncSpec, List.flatMap_cons]
    by_cases h1 : Char.toUpper c ∈ lettersUpper
    · rw [if_pos h1, if_pos h1, ih, numvalEncSpec]
    · by_cases h2 : Char.toUpper c = ' '
      · rw [if_neg h1, if_neg h1, if_pos h2, if_pos h2, ih, numvalEncSpec]
        rfl
      · rw [if_neg h1, if_neg h1, if_neg h2, if_neg h2, ih, numvalEncSpec]
        rfl

/-- C8: NumericValue encryption uppercases each character, emits a
letter's 1-based alphabet position as a decimal token, emits "0" for a
space, drops every other character, with a space after each token; in
particular "CAB " encrypts to "3 1 2 0 ". -/
theorem numval_encrypt_contract (text : List Char) :
    numval_logic_enc text = numvalEncSpec text ∧
    numval_logic_enc ("CAB ".toList) = "3 1 2 0 ".toList :=
  ⟨numval_enc_go_eq text, by decide⟩

/-- Drawing the element at index `i` and the remainder of the pool
together form a permutation of the pool. -/
theorem getD_cons_eraseIdx_perm (l : List Char) (i : Nat) (hi : i < l.length) :
    (l.getD i 'A' :: l.eraseIdx i).Perm l := by
  rw [List.getD_eq_getElem _ _ hi]
  have h1 : (l[i] :: l.eraseIdx i : List Char).Perm (l[i] :: l.erase l[i]) :=
    ((List.erase_getElem hi).symm).cons _
  have h2 : (l[i] :: l.erase l[i] : List Char).Perm l :=
    (List.perm_cons_erase (List.getElem_mem hi)).symm
  exact h1.trans h2

/-- The generate loop, run for as many steps as the pool has elements,
returns a permutation of the pool. -/
theorem subst_gen_aux_perm (rnd : Nat → Nat) (n : Nat) (pool : List Char)
    (h : pool.length = n) : (subst_logic_gen_aux rnd n pool).Perm pool := by
  induction n generalizing pool with
  | zero =>
    have hnil : pool = [] := List.length_eq_zero.mp h
    simp [subst_logic_gen_aux, hnil]
  | succ k ih =>
    have hlen : 0 < pool.length := by omega
    have hi : rnd (k + 1) % pool.length < pool.length := Nat.mod_lt _ hlen
    have herase : (pool.eraseIdx (rnd (k + 1) % pool.length)).length = k := by
      have hlen2 := List.length_eraseIdx_add_one hi
      omega
    exact ((ih _ herase).cons _).trans (getD_cons_eraseIdx_perm pool _ hi)

/-- C9: every output of the Substitution generate operation — whatever the
random draws — has exactly 26 characters, all uppercase letters, with
each of the 26 alphabet letters occurring exactly once. -/
theorem subst_generate_perm (rnd : Nat → Nat) :
    (subst_logic_gen rnd).length = 26 ∧
    (∀ c ∈ subst_logic_gen rnd, c ∈ lettersUpper) ∧
    (∀ c ∈ lettersUpper, (subst_logic_gen rnd).count c = 1) ∧
    (∀ text key, subst text key "generate" rnd = [subst_logic_gen rnd]) := by
  have hperm : (subst_logic_gen rnd).Perm lettersUpper :=
    subst_gen_aux_perm rnd 26 lettersUpper rfl
  have hcount : ∀ c ∈ lettersUpper, lettersUpper.count c = 1 := by decide
  refine ⟨hperm.length_eq.trans rfl, fun c hc => hperm.mem_iff.mp hc,
    fun c hc => (hperm.count_eq c).trans (hcount c hc), fun text key => rfl⟩

/-- Witness for C9 with the draw sequence `k ↦ 7 * k` at the letter Q. -/
theorem subst_generate_perm_witness :
    'Q' ∈ lettersUpper ∧ (subst_logic_gen (fun k => 7 * k)).count 'Q' = 1 :=
  ⟨by decide, (subst_generate_perm (fun k => 7 * k)).2.2.1 'Q' (by decide)⟩

/-- A lowercase letter is never an uppercase one and vice versa, stated
for permutation images. -/
theorem lettersUpper_map_toLower : lettersUpper.map Char.toLower = lettersLower := by decide

theorem lettersUpper_map_toUpper : lettersUpper.map Char.toUpper = lettersUpper := by decide

/-- Substitution decryption undoes substitution encryption when the key is
a permutation of the uppercase alphabet. -/
theorem subst_logic_inverse (text key : List Char) (hK : key.Perm lettersUpper) :
    subst_logic_dec (subst_logic_enc text key) key = text := by
  have hKL : (key.map Char.toLower).Perm lettersLower := by
    have h1 := hK.map Char.toLower
    rwa [lettersUpper_map_toLower] at h1
  have hKU : (key.map Char.toUpper).Perm lettersUpper := by
    have h1 := hK.map Char.toUpper
    rwa [lettersUpper_map_toUpper] at h1
  have hKLnd : (key.map Char.toLower).Nodup := hKL.nodup_iff.mpr lettersLower_nodup
  have hKUnd : (key.map Char.toUpper).Nodup := hKU.nodup_iff.mpr lettersUpper_nodup
  have hKLlen : (key.map Char.toLower).length = 26 := hKL.length_eq.trans rfl
  have hKUlen : (key.map Char.toUpper).length = 26 := hKU.length_eq.trans rfl
  induction text with
  | nil => rfl
  | cons c rest ih =>
    by_cases hl : c ∈ lettersLower
    · have hi : lettersLower.indexOf c < 26 := by
        have h := List.indexOf_lt_length.mpr hl
        simpa [lettersLower_length] using h
      have hilen : lettersLower.indexOf c < (key.map Char.toLower).length := by omega
      rw [subst_logic_enc, if_pos hl, List.singleton_append,
        List.getD_eq_getElem _ _ hilen]
      have he : (key.map Char.toLower)[lettersLower.indexOf c] ∈ key.map Char.toLower :=
        List.getElem_mem hilen
      rw [subst_logic_dec, if_pos he, List.singleton_append, ih]
      congr 1
      rw [List.indexOf_getElem hKLnd _ hilen,
        List.getD_eq_getElem _ _ (by rw [lettersLower_length]; omega),
        List.getElem_indexOf (by rw [lettersLower_length]; omega)]
    · by_cases hu : c ∈ lettersUpper
      · have hi : lettersUpper.indexOf c < 26 := by
          have h := List.indexOf_lt_length.mpr hu
          simpa [lettersUpper_length] using h
        have hilen : lettersUpper.indexOf c < (key.map Char.toUpper).length := by omega
        rw [subst_logic_enc, if_neg hl, if_pos hu, List.singleton_append,
          List.getD_eq_getElem _ _ hilen]
        have he : (key.map Char.toUpper)[lettersUpper.indexOf c] ∈ key.map Char.toUpper :=
          List.getElem_mem hilen
        have heU : (key.map Char.toUpper)[lettersUpper.indexOf c] ∈ lettersUpper :=
          hKU.mem_iff.mp he
        have heL : (key.map Char.toUpper)[lettersUpper.indexOf c] ∉ key.map Char.toLower :=
          fun habs => not_mem_lower_of_mem_upper _ heU (hKL.mem_iff.mp habs)
        rw [subst_logic_dec, if_neg heL, if_pos he, List.singleton_append, ih]
        congr 1
        rw [List.indexOf_getElem hKUnd _ hilen,
          List.getD_eq_getElem _ _ (by rw [lettersUpper_length]; omega),
          List.getElem_indexOf (by rw [lettersUpper_length]; omega)]
      · have hcl : c ∉ key.map Char.toLower := fun habs => hl (hKL.mem_iff.mp habs)
        have hcu : c ∉ key.map Char.toUpper := fun habs => hu (hKU.mem_iff.mp habs)
        rw [subst_logic_enc, if_neg hl, if_neg hu, List.singleton_append,
          subst_logic_dec, if_neg hcl, if_neg hcu, List.singleton_append, ih]

/-- C2: for alphabetic text and a key that is a permutation of the
26-letter alphabet, the Substitution cipher's decrypt applied to the
encrypt output with the same key returns the original text. -/
theorem subst_roundtrip (text key : List Char) (hK : key.Perm lettersUpper)
    (_hT : ∀ c ∈ text, c ∈ lettersLower ∨ c ∈ lettersUpper) :
    subst text key "encrypt" (fun _ => 0) = [subst_logic_enc text key] ∧
    subst (subst_logic_enc text key) key "decrypt" (fun _ => 0) = [text] := by
  refine ⟨rfl, ?_⟩
  have hmain := subst_logic_inverse text key hK
  simp [subst, hmain]

/-- Witness for C2 at text "HELLO" and the reversed-alphabet key. -/
theorem subst_roundtrip_witness :
    subst ("HELLO".toList) ("ZYXWVUTSRQPONMLKJIHGFEDCBA".toList) "encrypt" (fun _ => 0)
        = [subst_logic_enc ("HELLO".toList) ("ZYXWVUTSRQPONMLKJIHGFEDCBA".toList)] ∧
    subst (subst_logic_enc ("HELLO".toList) ("ZYXWVUTSRQPONMLKJIHGFEDCBA".toList))
        ("ZYXWVUTSRQPONMLKJIHGFEDCBA".toList) "decrypt" (fun _ => 0)
      = ["HELLO".toList] :=
  subst_roundtrip ("HELLO".toList) ("ZYXWVUTSRQPONMLKJIHGFEDCBA".toList)
    (show (lettersUpper.reverse).Perm lettersUpper from lettersUpper.reverse_perm)
    (by decide)

/-- Reading a whitespace-free prefix of the input accumulates it onto the
current token. -/
theorem pySplitAcc_token (tok : List Char)
    (htok : tok.all (fun c => !isPySpace c) = true) :
    ∀ s acc, pySplitAcc (tok ++ s) acc = pySplitAcc s (tok.reverse ++ acc) := by
  induction tok with
  | nil => intro s acc; rfl
  | cons c tk ih =>
    intro s acc
    rw [List.all_cons, Bool.and_eq_true] at htok
    have hc : ¬ (isPySpace c = true) := by
      simpa using htok.1
    rw [List.cons_append, pySplitAcc.eq_2, if_neg hc, ih htok.2, List.reverse_cons,
      List.append_assoc, List.singleton_append]

/-- Splitting a nonempty whitespace-free token followed by a space yields
that token and then the split of the remainder. -/
theorem pySplit_token_space (tok s : List Char) (hne : tok ≠ [])
    (htok : tok.all (fun c => !isPySpace c) = true) :
    pySplit (tok ++ ' ' :: s) = tok :: pySplit s := by
  rw [pySplit, pySplitAcc_token tok htok (' ' :: s) [], List.append_nil, pySplitAcc.eq_2,
    if_pos (show isPySpace ' ' = true from rfl),
    if_neg (by simpa using hne), List.reverse_reverse]
  rfl

/-- The 27 token strings the encryption can emit are nonempty, contain no
whitespace, and parse back to their value. -/
theorem natRepr_token_facts :
    ∀ i ∈ List.range 27,
      natRepr i ≠ [] ∧ (natRepr i).all (fun c => !isPySpace c) = true ∧
        pyInt (natRepr i) = some (i : Int) := by
  decide

/-- Splitting and parsing an encryption output recovers the emitted
integer tokens. -/
theorem numval_enc_parse (U : List Char) :
    pyMapInt (pySplit (numval_enc_go U)) = .ok (numvalTokens U) := by
  induction U with
  | nil => rfl
  | cons c rest ih =>
    rw [numval_enc_go, numvalTokens]
    by_cases h1 : c ∈ lettersUpper
    · have hi : lettersUpper.indexOf c < 26 := by
        have h := List.indexOf_lt_length.mpr h1
        simpa [lettersUpper_length] using h
      have hfacts := natRepr_token_facts (lettersUpper.indexOf c + 1)
        (by rw [List.mem_range]; omega)
      rw [if_pos h1, if_pos h1, List.append_assoc, List.singleton_append,
        pySplit_token_space _ _ hfacts.1 hfacts.2.1, pyMapInt, hfacts.2.2, ih]
      have hcast : ((lettersUpper.indexOf c + 1 : Nat) : Int)
          = (lettersUpper.indexOf c : Int) + 1 := by omega
      rw [hcast]
      rfl
    · by_cases h2 : c = ' '
      · rw [if_neg h1, if_neg h1, if_pos h2, if_pos h2]
        have hz := natRepr_token_facts 0 (by decide)
        rw [show ('0' :: ' ' :: numval_enc_go rest) = natRepr 0 ++ ' ' :: numval_enc_go rest
            from rfl,
          pySplit_token_space _ _ hz.1 hz.2.1, pyMapInt, hz.2.2, ih]
        rfl
      · rw [if_neg h1, if_neg h1, if_neg h2, if_neg h2]
        exact ih

/-- Decoding the emitted tokens produces the uppercased text restricted to
letters and spaces. -/
theorem numval_dec_tokens (U : List Char) :
    numval_dec_go (numvalTokens U)
      = .ok (U.filter (fun c => c ∈ lettersUpper || c == ' ')) := by
  induction U with
  | nil => rfl
  | cons c rest ih =>
    rw [numvalTokens]
    by_cases h1 : c ∈ lettersUpper
    · have hi : lettersUpper.indexOf c < 26 := by
        have h := List.indexOf_lt_length.mpr h1
        simpa [lettersUpper_length] using h
      have hne : ((lettersUpper.indexOf c : Int) + 1) ≠ 0 := by omega
      rw [if_pos h1, numval_dec_go, if_pos hne]
      have hidx : (lettersUpper.indexOf c : Int) + 1 - 1 = (lettersUpper.indexOf c : Int) := by
        omega
      have hget : pyGetChar lettersUpper ((lettersUpper.indexOf c : Int) + 1 - 1)
          = some c := by
        rw [hidx, pyGetChar,
          if_pos (by constructor <;> [omega; (rw [lettersUpper_length]; omega)])]
        rw [show ((lettersUpper.indexOf c : Int)).toNat = lettersUpper.indexOf c from by omega]
        rw [List.getElem?_eq_getElem (by rw [lettersUpper_length]; omega),
          List.getElem_indexOf (by rw [lettersUpper_length]; omega)]
      rw [hget, ih, List.filter_cons_of_pos (by simp [h1])]
      rfl
    · by_cases h2 : c = ' '
      · rw [if_neg h1, if_pos h2, numval_dec_go, if_neg (by simp), ih,
          List.filter_cons_of_pos (by simp [h2]), h2]
        rfl
      · rw [if_neg h1, if_neg h2, ih,
          List.filter_cons_of_neg (by simp [h1, h2])]

/-- C5: NumericValue decrypt applied to NumericValue encrypt of any text
returns the text uppercased with every character that is neither a letter
nor a space removed. -/
theorem numval_roundtrip (text : List Char) :
    numval text "encrypt" = .ok [numval_logic_enc text] ∧
    numval (numval_logic_enc text) "decrypt" = .ok [numvalFilter text] := by
  refine ⟨rfl, ?_⟩
  have hcore : numval_logic_dec (numval_logic_enc text) = .ok (numvalFilter text) := by
    rw [numval_logic_dec, numval_logic_enc, numval_enc_parse (text.map Char.toUpper)]
    exact numval_dec_tokens (text.map Char.toUpper)
  simp [numval, hcore, Except.map]

/-- C10: on a single-token input, NumericValue decrypt silently maps a
token in [-25, -1] to the uppercase letter at index `(n - 1) mod 26`
(Python's wrap-around indexing) and raises an out-of-range `IndexError`
for a token above 26; neither outcome is a parser usage error, both come
out of the cipher function itself. -/
theorem numval_decrypt_token_range (s : List Char) (n : Int)
    (hp : pyMapInt (pySplit s) = .ok [n]) :
    (-25 ≤ n → n ≤ -1 →
      numval_logic_dec s = .ok [lettersUpper.getD ((n - 1) % 26).toNat ' '] ∧
      numval s "decrypt" = .ok [[lettersUpper.getD ((n - 1) % 26).toNat ' ']]) ∧
    (26 < n →
      numval_logic_dec s = .error .indexError ∧
      numval s "decrypt" = .error .indexError) := by
  have hlen : (lettersUpper.length : Int) = 26 := rfl
  constructor
  · intro hlo hhi
    have hinrange : -(lettersUpper.length : Int) ≤ n - 1 ∧ n - 1 < 0 := by omega
    have hidx : (n - 1 + (lettersUpper.length : Int)).toNat = ((n - 1) % 26).toNat := by
      omega
    have hlt : ((n - 1) % 26).toNat < lettersUpper.length := by omega
    have hget : pyGetChar lettersUpper (n - 1)
        = some (lettersUpper.getD ((n - 1) % 26).toNat ' ') := by
      rw [pyGetChar, if_neg (by omega), if_pos hinrange, hidx,
        List.getElem?_eq_getElem hlt, List.getD_eq_getElem _ _ hlt]
    have hcore : numval_logic_dec s
        = .ok [lettersUpper.getD ((n - 1) % 26).toNat ' '] := by
      rw [numval_logic_dec, hp]
      show numval_dec_go [n] = _
      rw [numval_dec_go, if_pos (by omega), hget]
      rfl
    exact ⟨hcore, by simp [numval, hcore, Except.map]⟩
  · intro hhi
    have hget : pyGetChar lettersUpper (n - 1) = none := by
      rw [pyGetChar, if_neg (by omega), if_neg (by omega)]
    have hcore : numval_logic_dec s = .error .indexError := by
      rw [numval_logic_dec, hp]
      show numval_dec_go [n] = _
      rw [numval_dec_go, if_pos (by omega), hget]
    exact ⟨hcore, by simp [numval, hcore, Except.map]⟩

/-- Witness for C10 at the tokens "-1" (which decrypts to "Y") and "27"
(which raises IndexError). -/
theorem numval_decrypt_token_range_witness :
    numval_logic_dec ("-1".toList) = .ok ['Y'] ∧
    numval_logic_dec ("27".toList) = .error .indexError := by
  constructor
  · have h := (numval_decrypt_token_range ("-1".toList) (-1) (by decide)).1
      (by decide) (by decide)
    exact h.1.trans (by decide)
  · exact ((numval_decrypt_token_range ("27".toList) 27 (by decide)).2 (by decide)).1

end Crypto
